import Mathlib

/-!
Verification development for `plotGantt.py`, a Gantt-chart plotting tool
for scheduling (SCH) and multitasking-scheduling (MTS) result files.

The embedding below translates the data model and the core pipeline of the
source (parsing, deduplication, consolidation of sibling tasks, overlap
checking, command-line argument checking) into executable Lean definitions.

Modelling conventions:
  * Python floats are modelled as rationals (`ℚ`).  The program's numeric
    fields are decimal literals read by `float(...)`; `pyFloat` reads them
    exactly as rationals.  None of the verified properties depend on
    binary floating-point rounding: the pipeline only copies, compares and
    sums these values.
  * `exit(5)` together with the diagnostic printed just before it is
    modelled as an `Except` error carrying the exit code and the message.
  * A file is modelled as the list of its lines with the trailing newline
    removed.  (In the source the last field of each line carries the
    newline into `float`, which strips surrounding whitespace, so the two
    presentations parse identically.)
-/

namespace PlotGantt

/-- Failure channel of the program: `exit(code)` after printing `message`. -/
structure Failure where
  exitCode : Nat
  message : String
deriving DecidableEq, Repr

/-- The `task` class of `plotGantt.py`: a box in a Gantt chart.
`subtasks` is empty for leaf tasks and holds the consolidated siblings for
synthetic parent tasks. -/
inductive Task : Type where
  | mk (tBegin tEnd batchSize : ℚ) (order machine processingUnit operation : String)
      (subtasks : List Task) : Task

def Task.tBegin : Task → ℚ
  | .mk b _ _ _ _ _ _ _ => b

def Task.tEnd : Task → ℚ
  | .mk _ e _ _ _ _ _ _ => e

def Task.batchSize : Task → ℚ
  | .mk _ _ s _ _ _ _ _ => s

def Task.order : Task → String
  | .mk _ _ _ o _ _ _ _ => o

def Task.machine : Task → String
  | .mk _ _ _ _ m _ _ _ => m

def Task.processingUnit : Task → String
  | .mk _ _ _ _ _ p _ _ => p

def Task.operation : Task → String
  | .mk _ _ _ _ _ _ op _ => op

def Task.subtasks : Task → List Task
  | .mk _ _ _ _ _ _ _ subs => subs

@[simp] theorem Task.tBegin_mk (b e s : ℚ) (o m p op : String) (subs : List Task) :
    (Task.mk b e s o m p op subs).tBegin = b := rfl

@[simp] theorem Task.tEnd_mk (b e s : ℚ) (o m p op : String) (subs : List Task) :
    (Task.mk b e s o m p op subs).tEnd = e := rfl

@[simp] theorem Task.batchSize_mk (b e s : ℚ) (o m p op : String) (subs : List Task) :
    (Task.mk b e s o m p op subs).batchSize = s := rfl

@[simp] theorem Task.order_mk (b e s : ℚ) (o m p op : String) (subs : List Task) :
    (Task.mk b e s o m p op subs).order = o := rfl

@[simp] theorem Task.machine_mk (b e s : ℚ) (o m p op : String) (subs : List Task) :
    (Task.mk b e s o m p op subs).machine = m := rfl

@[simp] theorem Task.processingUnit_mk (b e s : ℚ) (o m p op : String) (subs : List Task) :
    (Task.mk b e s o m p op subs).processingUnit = p := rfl

@[simp] theorem Task.operation_mk (b e s : ℚ) (o m p op : String) (subs : List Task) :
    (Task.mk b e s o m p op subs).operation = op := rfl

@[simp] theorem Task.subtasks_mk (b e s : ℚ) (o m p op : String) (subs : List Task) :
    (Task.mk b e s o m p op subs).subtasks = subs := rfl

/-- Split a character list at every occurrence of `sep`, keeping empty
pieces: the semantics of Python `str.split(sep)` with a one-character
separator, which does not collapse runs of separators. -/
def splitChars (sep : Char) : List Char → List (List Char)
  | [] => [[]]
  | c :: cs =>
    if c = sep then [] :: splitChars sep cs
    else
      match splitChars sep cs with
      | [] => [[c]]
      | w :: ws => (c :: w) :: ws

/-- Python `s.split(sep)` for a one-character separator (the source only
splits on a single space and on an underscore). -/
def pySplit (s : String) (sep : Char) : List String :=
  (splitChars sep s.toList).map fun w => String.mk w

/-- Value of a decimal digit character, `none` for anything else. -/
def digitVal (c : Char) : Option Nat :=
  if 48 ≤ c.toNat ∧ c.toNat ≤ 57 then some (c.toNat - 48) else none

/-- Read a (possibly empty) run of decimal digits as a natural number. -/
def digitsToNat (cs : List Char) : Option Nat :=
  cs.foldl
    (fun acc c =>
      match acc, digitVal c with
      | some n, some d => some (10 * n + d)
      | _, _ => none)
    (some 0)

/-- Magnitude of an unsigned decimal literal: digits with an optional
fractional part, read exactly as a rational. -/
def pyFloatMag (body : List Char) : Option ℚ :=
  match splitChars '.' body with
  | [intPart] =>
      if intPart.isEmpty then none
      else (digitsToNat intPart).map fun n => (n : ℚ)
  | [intPart, fracPart] =>
      if intPart.isEmpty ∧ fracPart.isEmpty then none
      else
        match digitsToNat intPart, digitsToNat fracPart with
        | some n, some f =>
            some ((n : ℚ) + (f : ℚ) / ((10 : ℚ) ^ fracPart.length))
        | _, _ => none
  | _ => none

/-- Model of Python `float(...)` on the plain decimal literals this tool
consumes: optional sign, digits, optional fractional part, read exactly as
a rational.  Anything else is `none` (a `ValueError` in the source). -/
def pyFloat (s : String) : Option ℚ :=
  match s.toList with
  | '-' :: body => (pyFloatMag body).map fun q => -q
  | body => (pyFloatMag body)

/-- `checkLineStandardCompliance`: a line must split into exactly 5 columns,
otherwise the program prints the line and exits with code 5. -/
def checkLineStandardCompliance (line : List String) : Except Failure Unit :=
  if line.length ≠ 5 then
    .error ⟨5, "HAS WRONG NUMBER OF COLUMNS"⟩
  else
    .ok ()

/-- `checkMTSinfoCompliance`: the first column of an MTS line must split on
underscores into exactly 3 parts, otherwise the program exits with code 5. -/
def checkMTSinfoCompliance (info : List String) : Except Failure Unit :=
  if info.length ≠ 3 then
    .error ⟨5, "MTS INFO DOES NOT ADHERE TO MY STANDARD: processingUnit_machine_order"⟩
  else
    .ok ()

/-- Body of the `parseTasks` loop for one input line.  The source splits the
line on single space characters (`line.split(" ")`, which does not collapse
runs of spaces), checks the column count, reads the numeric fields with
`float`, and in MTS mode splits column 0 on underscores into
(processingUnit, machine, order). -/
def parseLine (mode : String) (line : String) : Except Failure Task :=
  let words := pySplit line ' '
  match checkLineStandardCompliance words with
  | .error e => .error e
  | .ok _ =>
    match pyFloat (words.getD 1 ""), pyFloat (words.getD 2 ""), pyFloat (words.getD 4 "") with
    | some tB, some tE, some bS =>
        if mode = "MTS" then
          let mtsInfo := pySplit (words.getD 0 "") '_'
          match checkMTSinfoCompliance mtsInfo with
          | .error e => .error e
          | .ok _ =>
              .ok (Task.mk tB tE bS (mtsInfo.getD 2 "") (mtsInfo.getD 1 "")
                (mtsInfo.getD 0 "") (words.getD 3 "") [])
        else
          .ok (Task.mk tB tE bS "" (words.getD 0 "") "" (words.getD 3 "") [])
    | _, _, _ => .error ⟨1, "ValueError: could not convert string to float"⟩

/-- `parseTasks`: parse the lines of a `.gantt` file into tasks, one per
line in file order, stopping at the first malformed line. -/
def parseTasks (mode : String) (lines : List String) : Except Failure (List Task) :=
  match lines with
  | [] => .ok []
  | l :: rest =>
    match parseLine mode l with
    | .error e => .error e
    | .ok t =>
      match parseTasks mode rest with
      | .error e => .error e
      | .ok ts => .ok (t :: ts)

/-- Field-wise equality used by `findTaskInList`: the 7 identifying fields,
`subtasks` excluded. -/
def sameTask (t u : Task) : Prop :=
  t.tBegin = u.tBegin ∧ t.tEnd = u.tEnd ∧ t.batchSize = u.batchSize ∧
  t.order = u.order ∧ t.machine = u.machine ∧
  t.processingUnit = u.processingUnit ∧ t.operation = u.operation

instance instDecidableSameTask (t u : Task) : Decidable (sameTask t u) := by
  unfold sameTask
  exact inferInstance

/-- `findTaskInList`: search a task list for a task agreeing on all 7
identifying fields. -/
def findTaskInList (t : Task) (taskList : List Task) : Bool :=
  taskList.any fun u => decide (sameTask u t)

/-- Accumulator loop of `removeDuplicateTasks`: keep a task when no
already-kept task matches it on all 7 fields. -/
def dedupGo (uniqueTasks : List Task) : List Task → List Task
  | [] => uniqueTasks
  | t :: rest =>
    if findTaskInList t uniqueTasks then dedupGo uniqueTasks rest
    else dedupGo (uniqueTasks ++ [t]) rest

/-- `removeDuplicateTasks`: drop exact duplicates (on the 7 identifying
fields), keeping first occurrences; lists shorter than 2 are returned
unchanged. -/
def removeDuplicateTasks (tasks : List Task) : List Task :=
  if tasks.length < 2 then tasks else dedupGo [] tasks

/-- Filter of a task list to one machine (`if m == t.machine` in the
source's per-machine loops). -/
def compatibleTasks (m : String) (tasks : List Task) : List Task :=
  tasks.filter fun t => decide (t.machine = m)

/-- Append a slot to a slot list when not already present (`if thisSlot not
in slots: slots.append(thisSlot)`). -/
def addSlot (slots : List (ℚ × ℚ)) (s : ℚ × ℚ) : List (ℚ × ℚ) :=
  if s ∈ slots then slots else slots ++ [s]

/-- The distinct `(tBegin, tEnd)` slots of a task list, in first-occurrence
order. -/
def distinctSlots (tasks : List Task) : List (ℚ × ℚ) :=
  tasks.foldl (fun acc t => addSlot acc (t.tBegin, t.tEnd)) []

/-- Body of the per-slot loop in `consolidateSiblingTasks`: given the
concurrent tasks of machine `m` in time slot `slot`,
  * an empty group is an invalid state (exit 5);
  * a single task passes through unchanged;
  * a larger group is checked against the synthetic parent's fields
    (machine `m`, processingUnit and operation of the first task, interval
    `slot`) — any mismatch exits with code 5 — then deduplicated; a group
    that collapses to one task is emitted directly, otherwise the parent
    carries the group as `subtasks` with `batchSize` their sum.
The tail of this branch (after the consistency check and deduplication)
is `consolidateSubs` below; the branching itself is `consolidateSlot`. -/
def consolidateSubs (m : String) (slot : ℚ × ℚ) (t0 : Task) (subs : List Task) :
    Except Failure Task :=
  if subs.length = 1 then
    .ok (subs.headD t0)
  else
    .ok (Task.mk slot.1 slot.2
      (subs.foldl (fun acc s => acc + s.batchSize) 0)
      "" m t0.processingUnit ("MAIN_" ++ t0.operation) subs)

/-- Case split of the per-slot loop body on the number of concurrent
tasks, including the defensive consistency check against the synthetic
parent's fields. -/
def consolidateSlot (m : String) (slot : ℚ × ℚ) (concurrentTasks : List Task) :
    Except Failure Task :=
  match concurrentTasks with
  | [] => .error ⟨5, "INVALID NUMBER OF TASKS PER TIME SLOT"⟩
  | [t] => .ok t
  | t0 :: t1 :: rest =>
    if (∀ cct ∈ t0 :: t1 :: rest,
        cct.machine = m ∧ cct.processingUnit = t0.processingUnit ∧
        cct.tBegin = slot.1 ∧ cct.tEnd = slot.2) then
      consolidateSubs m slot t0 (removeDuplicateTasks (t0 :: t1 :: rest))
    else
      .error ⟨5, "SUBTASKS DO NOT MATCH MAIN TASK"⟩

/-- The concurrent tasks of a slot: the tasks of the machine whose
`(tBegin, tEnd)` equals the slot exactly. -/
def concurrentOf (compat : List Task) (slot : ℚ × ℚ) : List Task :=
  compat.filter fun ct => decide ((ct.tBegin, ct.tEnd) = slot)

/-- Inner slot loop of `consolidateSiblingTasks` for one machine: for each
slot, select the concurrent tasks and consolidate them; the first failure
aborts the run. -/
def consolidateSlots (m : String) (compat : List Task) :
    List (ℚ × ℚ) → Except Failure (List Task)
  | [] => .ok []
  | slot :: restSlots =>
    match consolidateSlot m slot (concurrentOf compat slot) with
    | .error e => .error e
    | .ok t =>
      match consolidateSlots m compat restSlots with
      | .error e => .error e
      | .ok ts => .ok (t :: ts)

/-- One machine's portion of `consolidateSiblingTasks`. -/
def consolidateMachine (m : String) (tasks : List Task) : Except Failure (List Task) :=
  let compat := compatibleTasks m tasks
  consolidateSlots m compat (distinctSlots compat)

/-- `consolidateSiblingTasks` (MTS only): group each machine's tasks by
exact time slot and consolidate each group, accumulating the per-machine
results in machine-list order. -/
def consolidateSiblingTasks (tasks : List Task) :
    List String → Except Failure (List Task)
  | [] => .ok []
  | m :: restMachines =>
    match consolidateMachine m tasks with
    | .error e => .error e
    | .ok a =>
      match consolidateSiblingTasks tasks restMachines with
      | .error e => .error e
      | .ok b => .ok (a ++ b)

/-- Python's tuple ordering on time slots: lexicographic, non-strict. -/
def slotLe (a b : ℚ × ℚ) : Prop :=
  a.1 < b.1 ∨ (a.1 = b.1 ∧ a.2 ≤ b.2)

/-- Python's tuple ordering on time slots: lexicographic, strict. -/
def slotLt (a b : ℚ × ℚ) : Prop :=
  a.1 < b.1 ∨ (a.1 = b.1 ∧ a.2 < b.2)

instance instDecidableSlotLe (a b : ℚ × ℚ) : Decidable (slotLe a b) := by
  unfold slotLe
  exact inferInstance

instance instDecidableSlotLt (a b : ℚ × ℚ) : Decidable (slotLt a b) := by
  unfold slotLt
  exact inferInstance

/-- Insert a slot into a list sorted by the lexicographic tuple order,
after every element not lexicographically greater than it. -/
def insertSlot (a : ℚ × ℚ) : List (ℚ × ℚ) → List (ℚ × ℚ)
  | [] => [a]
  | b :: l => if slotLt a b then a :: b :: l else b :: insertSlot a l

/-- Python `sorted(slots)`: sort slots by the lexicographic tuple order.
Modelled by a stable insertion sort; it yields the sorted permutation of
its input, which on the duplicate-free slot lists the source sorts is
exactly the list Python's `sorted` produces. -/
def sortSlots (slots : List (ℚ × ℚ)) : List (ℚ × ℚ) :=
  slots.foldr insertSlot []

/-- Pair scan of `checkForOverlappingTasks` over an already-sorted slot
list: report an overlap when any earlier slot's end exceeds any later
slot's begin. -/
def hasOverlapIn : List (ℚ × ℚ) → Bool
  | [] => false
  | s :: rest => (rest.any fun s2 => decide (s2.1 < s.2)) || hasOverlapIn rest

/-- The distinct slots of machine `m` in a task list, in first-occurrence
order (shared slot-derivation of the consolidation and overlap loops). -/
def machineSlots (m : String) (tasks : List Task) : List (ℚ × ℚ) :=
  distinctSlots (compatibleTasks m tasks)

/-- `checkForOverlappingTasks`: for each machine, sort its distinct slots
and report whether some earlier slot ends after some later slot begins. -/
def checkForOverlappingTasks (tasks : List Task) (machines : List String) : Bool :=
  machines.any fun m => hasOverlapIn (sortSlots (machineSlots m tasks))

/-- `readArgs`: model of the command-line check.  The result is the list of
printed diagnostic lines paired with either the exit (wrong argument
count) or the returned argument list.  Note the source prints the usage
message for an unrecognized mode but still returns the arguments. -/
def readArgs (args : List String) : List String × Except Failure (List String) :=
  let usage := "Usage: plotGantt.py TYPE path/to/result/file.gantt where TYPE is : MTS / SCH"
  if args.length ≠ 3 then
    (["ERROR - Wrong number of arguments!", usage], .error ⟨5, "wrong number of arguments"⟩)
  else if args.getD 1 "" ≠ "MTS" ∧ args.getD 1 "" ≠ "SCH" then
    (["ERROR - Wrong type specified! : " ++ args.getD 1 "", usage], .ok args)
  else
    ([], .ok args)

/-! ### Properties of the Deduplicator -/

theorem findTaskInList_eq_false {t : Task} {l : List Task} :
    findTaskInList t l = false ↔ ∀ u ∈ l, ¬ sameTask u t := by
  simp [findTaskInList]

theorem dedupGo_append (l : List Task) :
    ∀ acc : List Task, ∃ m, dedupGo acc l = acc ++ m ∧ m.Sublist l := by
  induction l with
  | nil => exact fun acc => ⟨[], by simp [dedupGo]⟩
  | cons t rest ih =>
    intro acc
    by_cases h : findTaskInList t acc
    · obtain ⟨m, hm, hs⟩ := ih acc
      exact ⟨m, by simp [dedupGo, h, hm], hs.cons t⟩
    · obtain ⟨m, hm, hs⟩ := ih (acc ++ [t])
      exact ⟨t :: m, by simp [dedupGo, h, hm], hs.cons₂ t⟩

theorem dedupGo_pairwise (l : List Task) :
    ∀ acc : List Task, acc.Pairwise (fun a b => ¬ sameTask a b) →
      (dedupGo acc l).Pairwise fun a b => ¬ sameTask a b := by
  induction l with
  | nil => intro acc hacc; simpa [dedupGo] using hacc
  | cons t rest ih =>
    intro acc hacc
    by_cases h : findTaskInList t acc
    · simpa [dedupGo, h] using ih acc hacc
    · have hfresh : ∀ u ∈ acc, ¬ sameTask u t :=
        findTaskInList_eq_false.1 (by simpa using h)
      have hnew : (acc ++ [t]).Pairwise fun a b => ¬ sameTask a b := by
        rw [List.pairwise_append]
        exact ⟨hacc, by simp, by simpa using hfresh⟩
      simpa [dedupGo, h] using ih (acc ++ [t]) hnew

theorem dedupGo_of_pairwise (l : List Task) :
    ∀ acc : List Task, (∀ u ∈ acc, ∀ v ∈ l, ¬ sameTask u v) →
      l.Pairwise (fun a b => ¬ sameTask a b) → dedupGo acc l = acc ++ l := by
  induction l with
  | nil => intro acc _ _; simp [dedupGo]
  | cons t rest ih =>
    intro acc hfresh hl
    have hf : findTaskInList t acc = false :=
      findTaskInList_eq_false.2 fun u hu => hfresh u hu t (by simp)
    rw [List.pairwise_cons] at hl
    have hstep : ∀ u ∈ acc ++ [t], ∀ v ∈ rest, ¬ sameTask u v := by
      intro u hu v hv
      rcases List.mem_append.1 hu with hua | hut
      · exact hfresh u hua v (by simp [hv])
      · have : u = t := by simpa using hut
        exact this ▸ hl.1 v hv
    have := ih (acc ++ [t]) hstep hl.2
    simp [dedupGo, hf, this]

theorem removeDuplicateTasks_sublist (tasks : List Task) :
    (removeDuplicateTasks tasks).Sublist tasks := by
  unfold removeDuplicateTasks
  split_ifs with h
  · exact List.Sublist.refl tasks
  · obtain ⟨m, hm, hs⟩ := dedupGo_append tasks []
    simpa [hm] using hs

theorem removeDuplicateTasks_pairwise (tasks : List Task) :
    (removeDuplicateTasks tasks).Pairwise fun a b => ¬ sameTask a b := by
  unfold removeDuplicateTasks
  split_ifs with h
  · rcases tasks with _ | ⟨a, _ | ⟨b, l⟩⟩
    · simp
    · simp
    · simp only [List.length_cons] at h
      omega
  · exact dedupGo_pairwise tasks [] List.Pairwise.nil

theorem removeDuplicateTasks_of_pairwise {tasks : List Task}
    (h : tasks.Pairwise fun a b => ¬ sameTask a b) :
    removeDuplicateTasks tasks = tasks := by
  unfold removeDuplicateTasks
  split_ifs with hlen
  · rfl
  · simpa using dedupGo_of_pairwise tasks [] (by simp) h

theorem removeDuplicateTasks_cons (t : Task) (rest : List Task) :
    ∃ m, removeDuplicateTasks (t :: rest) = t :: m := by
  unfold removeDuplicateTasks
  split_ifs with h
  · exact ⟨rest, rfl⟩
  · have h0 : dedupGo [] (t :: rest) = dedupGo [t] rest := by
      simp [dedupGo, findTaskInList]
    obtain ⟨m, hm, _⟩ := dedupGo_append rest [t]
    exact ⟨m, by simp [h0, hm]⟩

theorem sameTask_trans {a b c : Task} (h1 : sameTask a b) (h2 : sameTask b c) :
    sameTask a c := by
  obtain ⟨x1, x2, x3, x4, x5, x6, x7⟩ := h1
  obtain ⟨y1, y2, y3, y4, y5, y6, y7⟩ := h2
  exact ⟨x1.trans y1, x2.trans y2, x3.trans y3, x4.trans y4,
    x5.trans y5, x6.trans y6, x7.trans y7⟩

/-- Specification-side filter for the Deduplicator, written from the
spec's words: walk the input keeping a task exactly when no task earlier
in the input (the `earlier` prefix, which collects every element walked
so far, kept or not) agrees with it on all 7 identifying fields.  Its
output is, by construction, the subsequence of first occurrences in input
order. -/
def specKeepFirst (earlier : List Task) : List Task → List Task
  | [] => []
  | t :: rest =>
    if ∃ u ∈ earlier, sameTask u t then specKeepFirst (earlier ++ [t]) rest
    else t :: specKeepFirst (earlier ++ [t]) rest

/-- The spec's Deduplicator: the first occurrence of each distinct
7-tuple, in input order. -/
def specDeduplicator (tasks : List Task) : List Task := specKeepFirst [] tasks

theorem dedupGo_eq_specKeepFirst (l : List Task) :
    ∀ acc earlier : List Task,
      (∀ v, (∃ u ∈ earlier, sameTask u v) ↔ ∃ u ∈ acc, sameTask u v) →
      dedupGo acc l = acc ++ specKeepFirst earlier l := by
  induction l with
  | nil =>
    intro acc earlier _
    simp [dedupGo, specKeepFirst]
  | cons t rest ih =>
    intro acc earlier hinv
    by_cases hseen : ∃ u ∈ earlier, sameTask u t
    · have hfound : findTaskInList t acc = true := by
        obtain ⟨u, hu, hut⟩ := (hinv t).1 hseen
        exact List.any_eq_true.2 ⟨u, hu, decide_eq_true hut⟩
      have hinv' : ∀ v, (∃ u ∈ earlier ++ [t], sameTask u v) ↔
          ∃ u ∈ acc, sameTask u v := by
        intro v
        constructor
        · rintro ⟨u, hu, huv⟩
          rcases List.mem_append.1 hu with hu' | hu'
          · exact (hinv v).1 ⟨u, hu', huv⟩
          · have hut : u = t := by simpa using hu'
            subst hut
            obtain ⟨w, hw, hwu⟩ := (hinv u).1 hseen
            exact ⟨w, hw, sameTask_trans hwu huv⟩
        · rintro huv
          obtain ⟨u, hu, huv⟩ := (hinv v).2 huv
          exact ⟨u, List.mem_append.2 (Or.inl hu), huv⟩
      rw [specKeepFirst, if_pos hseen]
      simpa [dedupGo, hfound] using ih acc (earlier ++ [t]) hinv'
    · have hfound : findTaskInList t acc = false := by
        rw [findTaskInList_eq_false]
        intro u hu hut
        exact hseen ((hinv t).2 ⟨u, hu, hut⟩)
      have hinv' : ∀ v, (∃ u ∈ earlier ++ [t], sameTask u v) ↔
          ∃ u ∈ acc ++ [t], sameTask u v := by
        intro v
        constructor
        · rintro ⟨u, hu, huv⟩
          rcases List.mem_append.1 hu with hu' | hu'
          · obtain ⟨w, hw, hwv⟩ := (hinv v).1 ⟨u, hu', huv⟩
            exact ⟨w, List.mem_append.2 (Or.inl hw), hwv⟩
          · exact ⟨u, List.mem_append.2 (Or.inr hu'), huv⟩
        · rintro ⟨u, hu, huv⟩
          rcases List.mem_append.1 hu with hu' | hu'
          · obtain ⟨w, hw, hwv⟩ := (hinv v).2 ⟨u, hu', huv⟩
            exact ⟨w, List.mem_append.2 (Or.inl hw), hwv⟩
          · exact ⟨u, List.mem_append.2 (Or.inr hu'), huv⟩
      rw [specKeepFirst, if_neg hseen]
      have hrec := ih (acc ++ [t]) (earlier ++ [t]) hinv'
      simp only [dedupGo, hfound, Bool.false_eq_true, if_false, hrec,
        List.append_assoc, List.singleton_append]

theorem removeDuplicateTasks_eq_spec (tasks : List Task) :
    removeDuplicateTasks tasks = specDeduplicator tasks := by
  unfold removeDuplicateTasks specDeduplicator
  split_ifs with h
  · rcases tasks with _ | ⟨a, _ | ⟨b, l⟩⟩
    · simp [specKeepFirst]
    · simp [specKeepFirst]
    · simp only [List.length_cons] at h
      omega
  · simpa using dedupGo_eq_specKeepFirst tasks [] [] (by simp)

/-- Claim C4: for every task list, the Deduplicator returns the
subsequence of the input that keeps exactly the first occurrence of each
distinct 7-tuple (tBegin, tEnd, batchSize, order, machine,
processingUnit, operation) in input order — it equals the spec-side
keep-first filter (which keeps a task exactly when no earlier input task
agrees with it on all 7 fields), it is a sublist of the input, and no two
of its elements agree on the 7-tuple, with exact equality on the time
fields and batchSize. -/
theorem removeDuplicateTasks_spec (tasks : List Task) :
    removeDuplicateTasks tasks = specDeduplicator tasks ∧
    (removeDuplicateTasks tasks).Sublist tasks ∧
    (removeDuplicateTasks tasks).Pairwise fun a b => ¬ sameTask a b :=
  ⟨removeDuplicateTasks_eq_spec tasks, removeDuplicateTasks_sublist tasks,
    removeDuplicateTasks_pairwise tasks⟩

/-- Claim C10: the Deduplicator is idempotent — applying
`removeDuplicateTasks` to its own output returns that output unchanged. -/
theorem removeDuplicateTasks_idempotent (tasks : List Task) :
    removeDuplicateTasks (removeDuplicateTasks tasks) = removeDuplicateTasks tasks :=
  removeDuplicateTasks_of_pairwise (removeDuplicateTasks_pairwise tasks)

/-! ### Properties of the slot derivation -/

theorem mem_addSlot {slots : List (ℚ × ℚ)} {s x : ℚ × ℚ} :
    x ∈ addSlot slots s ↔ x ∈ slots ∨ x = s := by
  unfold addSlot
  split_ifs with h
  · constructor
    · exact fun hx => Or.inl hx
    · rintro (hx | rfl)
      · exact hx
      · exact h
  · simp

theorem nodup_addSlot {slots : List (ℚ × ℚ)} (h : slots.Nodup) (s : ℚ × ℚ) :
    (addSlot slots s).Nodup := by
  unfold addSlot
  split_ifs with hs
  · exact h
  · simpa [List.nodup_append] using ⟨h, hs⟩

theorem mem_foldl_addSlot (ts : List Task) :
    ∀ (acc : List (ℚ × ℚ)) (s : ℚ × ℚ),
      s ∈ ts.foldl (fun acc t => addSlot acc (t.tBegin, t.tEnd)) acc ↔
        s ∈ acc ∨ ∃ t ∈ ts, s = (t.tBegin, t.tEnd) := by
  induction ts with
  | nil => simp
  | cons t rest ih =>
    intro acc s
    rw [List.foldl_cons, ih]
    rw [mem_addSlot]
    constructor
    · rintro ((hacc | rfl) | ⟨u, hu, rfl⟩)
      · exact Or.inl hacc
      · exact Or.inr ⟨t, by simp⟩
      · exact Or.inr ⟨u, by simp [hu]⟩
    · rintro (hacc | ⟨u, hu, rfl⟩)
      · exact Or.inl (Or.inl hacc)
      · rcases List.mem_cons.1 hu with rfl | hu
        · exact Or.inl (Or.inr rfl)
        · exact Or.inr ⟨u, hu, rfl⟩

theorem mem_distinctSlots {ts : List Task} {s : ℚ × ℚ} :
    s ∈ distinctSlots ts ↔ ∃ t ∈ ts, s = (t.tBegin, t.tEnd) := by
  unfold distinctSlots
  rw [mem_foldl_addSlot]
  simp

theorem nodup_foldl_addSlot (ts : List Task) :
    ∀ acc : List (ℚ × ℚ), acc.Nodup →
      (ts.foldl (fun acc t => addSlot acc (t.tBegin, t.tEnd)) acc).Nodup := by
  induction ts with
  | nil => exact fun acc h => h
  | cons t rest ih =>
    intro acc hacc
    exact ih (addSlot acc (t.tBegin, t.tEnd)) (nodup_addSlot hacc _)

theorem nodup_distinctSlots (ts : List Task) : (distinctSlots ts).Nodup :=
  nodup_foldl_addSlot ts [] List.nodup_nil

theorem mem_compatibleTasks {m : String} {tasks : List Task} {t : Task} :
    t ∈ compatibleTasks m tasks ↔ t ∈ tasks ∧ t.machine = m := by
  simp [compatibleTasks]

theorem mem_concurrentOf {compat : List Task} {slot : ℚ × ℚ} {t : Task} :
    t ∈ concurrentOf compat slot ↔
      t ∈ compat ∧ t.tBegin = slot.1 ∧ t.tEnd = slot.2 := by
  simp [concurrentOf, Prod.ext_iff]

/-! ### Properties of the Consolidator -/

theorem foldl_add_batchSize (l : List Task) :
    ∀ c : ℚ, l.foldl (fun acc s => acc + s.batchSize) c = c + (l.map Task.batchSize).sum := by
  induction l with
  | nil => simp
  | cons t rest ih =>
    intro c
    rw [List.foldl_cons, ih (c + t.batchSize)]
    simp [add_assoc]

theorem consolidateSlot_ok_provenance {m : String} {slot : ℚ × ℚ}
    {g : List Task} {t : Task} (h : consolidateSlot m slot g = .ok t) :
    t ∈ g ∨ (t.tBegin = slot.1 ∧ t.tEnd = slot.2) := by
  match g with
  | [] => simp [consolidateSlot] at h
  | [u] =>
    simp only [consolidateSlot, Except.ok.injEq] at h
    exact Or.inl (by simp [← h])
  | t0 :: t1 :: rest =>
    rw [consolidateSlot] at h
    by_cases hchk : ∀ cct ∈ t0 :: t1 :: rest,
        cct.machine = m ∧ cct.processingUnit = t0.processingUnit ∧
        cct.tBegin = slot.1 ∧ cct.tEnd = slot.2
    · rw [if_pos hchk] at h
      unfold consolidateSubs at h
      by_cases hlen : (removeDuplicateTasks (t0 :: t1 :: rest)).length = 1
      · rw [if_pos hlen] at h
        obtain ⟨u, hu⟩ := List.length_eq_one.1 hlen
        rw [hu] at h
        simp only [List.headD_cons, Except.ok.injEq] at h
        rw [← h]
        exact Or.inl ((removeDuplicateTasks_sublist (t0 :: t1 :: rest)).subset
          (by rw [hu]; simp))
      · rw [if_neg hlen] at h
        simp only [Except.ok.injEq] at h
        rw [← h]
        exact Or.inr ⟨rfl, rfl⟩
    · rw [if_neg hchk] at h
      simp at h

theorem consolidateSlot_parent {m : String} {slot : ℚ × ℚ}
    {t0 t1 : Task} {rest : List Task} {t : Task}
    (hsub0 : ∀ g ∈ t0 :: t1 :: rest, g.subtasks = ([] : List Task))
    (h : consolidateSlot m slot (t0 :: t1 :: rest) = .ok t)
    (hne : t.subtasks ≠ []) :
    (t.subtasks.map Task.batchSize).sum = t.batchSize ∧
    (∀ s ∈ t.subtasks, s.tBegin = t.tBegin ∧ s.tEnd = t.tEnd ∧
      s.machine = t.machine ∧ s.processingUnit = t.processingUnit) ∧
    ∃ tl, t.subtasks = t0 :: tl ∧ t.operation = "MAIN_" ++ t0.operation := by
  rw [consolidateSlot] at h
  by_cases hchk : ∀ cct ∈ t0 :: t1 :: rest,
      cct.machine = m ∧ cct.processingUnit = t0.processingUnit ∧
      cct.tBegin = slot.1 ∧ cct.tEnd = slot.2
  · rw [if_pos hchk] at h
    unfold consolidateSubs at h
    by_cases hlen : (removeDuplicateTasks (t0 :: t1 :: rest)).length = 1
    · exfalso
      rw [if_pos hlen] at h
      obtain ⟨u, hu⟩ := List.length_eq_one.1 hlen
      rw [hu] at h
      simp only [List.headD_cons, Except.ok.injEq] at h
      rw [← h] at hne
      exact hne (hsub0 u ((removeDuplicateTasks_sublist (t0 :: t1 :: rest)).subset
        (by rw [hu]; simp)))
    · rw [if_neg hlen] at h
      simp only [Except.ok.injEq] at h
      rw [← h]
      refine ⟨?_, ?_, ?_⟩
      · simp [foldl_add_batchSize]
      · intro s hs
        simp only [Task.subtasks_mk] at hs
        have hmem : s ∈ t0 :: t1 :: rest :=
          (removeDuplicateTasks_sublist (t0 :: t1 :: rest)).subset hs
        obtain ⟨h1, h2, h3, h4⟩ := hchk s hmem
        simp [h1, h2, h3, h4]
      · obtain ⟨tl, htl⟩ := removeDuplicateTasks_cons t0 (t1 :: rest)
        exact ⟨tl, by simp [htl], by simp⟩
  · rw [if_neg hchk] at h
    simp at h

theorem consolidateSlots_ok_mem {m : String} {compat : List Task}
    {slots : List (ℚ × ℚ)} {res : List Task}
    (h : consolidateSlots m compat slots = .ok res) :
    ∀ t ∈ res, ∃ slot ∈ slots,
      consolidateSlot m slot (concurrentOf compat slot) = .ok t := by
  induction slots generalizing res with
  | nil =>
    simp only [consolidateSlots, Except.ok.injEq] at h
    subst h
    simp
  | cons slot restS ih =>
    rw [consolidateSlots] at h
    cases hc : consolidateSlot m slot (concurrentOf compat slot) with
    | error e => rw [hc] at h; simp at h
    | ok t' =>
      rw [hc] at h
      cases hrest : consolidateSlots m compat restS with
      | error e => rw [hrest] at h; simp at h
      | ok ts =>
        rw [hrest] at h
        simp only [Except.ok.injEq] at h
        subst h
        intro t ht
        rcases List.mem_cons.1 ht with rfl | ht
        · exact ⟨slot, by simp, hc⟩
        · obtain ⟨s, hs, hcs⟩ := ih hrest t ht
          exact ⟨s, by simp [hs], hcs⟩

theorem consolidateMachine_ok_mem {m : String} {tasks res : List Task}
    (h : consolidateMachine m tasks = .ok res) :
    ∀ t ∈ res, ∃ slot ∈ distinctSlots (compatibleTasks m tasks),
      consolidateSlot m slot (concurrentOf (compatibleTasks m tasks) slot) = .ok t := by
  unfold consolidateMachine at h
  exact consolidateSlots_ok_mem h

theorem consolidateSiblingTasks_ok_mem {tasks : List Task}
    {machines : List String} {res : List Task}
    (h : consolidateSiblingTasks tasks machines = .ok res) :
    ∀ t ∈ res, ∃ m ∈ machines, ∃ slot ∈ distinctSlots (compatibleTasks m tasks),
      consolidateSlot m slot (concurrentOf (compatibleTasks m tasks) slot) = .ok t := by
  induction machines generalizing res with
  | nil =>
    simp only [consolidateSiblingTasks, Except.ok.injEq] at h
    subst h
    simp
  | cons m restM ih =>
    rw [consolidateSiblingTasks] at h
    cases hm : consolidateMachine m tasks with
    | error e => rw [hm] at h; simp at h
    | ok a =>
      rw [hm] at h
      cases hrest : consolidateSiblingTasks tasks restM with
      | error e => rw [hrest] at h; simp at h
      | ok b =>
        rw [hrest] at h
        simp only [Except.ok.injEq] at h
        subst h
        intro t ht
        rcases List.mem_append.1 ht with ha | hb
        · obtain ⟨slot, hs, hc⟩ := consolidateMachine_ok_mem hm t ha
          exact ⟨m, by simp, slot, hs, hc⟩
        · obtain ⟨m', hm', slot, hs, hc⟩ := ih hrest t hb
          exact ⟨m', by simp [hm'], slot, hs, hc⟩

theorem consolidateSlot_isOk {m : String} {slot : ℚ × ℚ} {g : List Task}
    (hne : g ≠ [])
    (hfields : ∀ x ∈ g, x.machine = m ∧ x.tBegin = slot.1 ∧ x.tEnd = slot.2)
    (hpu : ∀ x ∈ g, ∀ y ∈ g, x.processingUnit = y.processingUnit) :
    ∃ t, consolidateSlot m slot g = .ok t := by
  match g with
  | [] => exact absurd rfl hne
  | [u] => exact ⟨u, rfl⟩
  | t0 :: t1 :: rest =>
    have hchk : ∀ cct ∈ t0 :: t1 :: rest,
        cct.machine = m ∧ cct.processingUnit = t0.processingUnit ∧
        cct.tBegin = slot.1 ∧ cct.tEnd = slot.2 := by
      intro cct hc
      obtain ⟨h1, h2, h3⟩ := hfields cct hc
      exact ⟨h1, hpu cct hc t0 (by simp), h2, h3⟩
    rw [consolidateSlot, if_pos hchk]
    unfold consolidateSubs
    by_cases hlen : (removeDuplicateTasks (t0 :: t1 :: rest)).length = 1
    · rw [if_pos hlen]
      exact ⟨_, rfl⟩
    · rw [if_neg hlen]
      exact ⟨_, rfl⟩

theorem consolidateSlots_isOk {m : String} {compat : List Task} :
    ∀ slots : List (ℚ × ℚ),
      (∀ slot ∈ slots, ∃ t, consolidateSlot m slot (concurrentOf compat slot) = .ok t) →
      ∃ res, consolidateSlots m compat slots = .ok res := by
  intro slots
  induction slots with
  | nil => exact fun _ => ⟨[], rfl⟩
  | cons slot restS ih =>
    intro h
    obtain ⟨t, ht⟩ := h slot (by simp)
    obtain ⟨res, hres⟩ := ih fun s hs => h s (by simp [hs])
    refine ⟨t :: res, ?_⟩
    rw [consolidateSlots, ht, hres]

theorem consolidateMachine_isOk {m : String} {tasks : List Task}
    (hpu : ∀ t1 ∈ tasks, ∀ t2 ∈ tasks, t1.machine = t2.machine →
      t1.tBegin = t2.tBegin → t1.tEnd = t2.tEnd →
      t1.processingUnit = t2.processingUnit) :
    ∃ res, consolidateMachine m tasks = .ok res := by
  unfold consolidateMachine
  apply consolidateSlots_isOk
  intro slot hslot
  apply consolidateSlot_isOk
  · obtain ⟨u, hu, hus⟩ := mem_distinctSlots.1 hslot
    have : u ∈ concurrentOf (compatibleTasks m tasks) slot :=
      mem_concurrentOf.2 ⟨hu, by rw [hus], by rw [hus]⟩
    exact List.ne_nil_of_mem this
  · intro x hx
    obtain ⟨hxc, h1, h2⟩ := mem_concurrentOf.1 hx
    exact ⟨(mem_compatibleTasks.1 hxc).2, h1, h2⟩
  · intro x hx y hy
    obtain ⟨hxc, hx1, hx2⟩ := mem_concurrentOf.1 hx
    obtain ⟨hyc, hy1, hy2⟩ := mem_concurrentOf.1 hy
    obtain ⟨hxt, hxm⟩ := mem_compatibleTasks.1 hxc
    obtain ⟨hyt, hym⟩ := mem_compatibleTasks.1 hyc
    exact hpu x hxt y hyt (by rw [hxm, hym]) (by rw [hx1, hy1]) (by rw [hx2, hy2])

/-- Outcome projection used to state failing runs: the exit recorded by the
model, `none` for successful runs. -/
def failureOf {α : Type} : Except Failure α → Option Failure
  | .error e => some e
  | .ok _ => none

/-- Concrete example task: the parse of MTS line `PU0_M0_B 0 1 A 10`. -/
def exTaskA : Task := Task.mk 0 1 10 "B" "M0" "PU0" "A" []

/-- Concrete example task: the parse of MTS line `PU0_M0_B 0 1 A 20`. -/
def exTaskB : Task := Task.mk 0 1 20 "B" "M0" "PU0" "A" []

/-- The synthetic parent consolidating `exTaskA` and `exTaskB`. -/
def exParent : Task := Task.mk 0 1 30 "" "M0" "PU0" "MAIN_A" [exTaskA, exTaskB]

theorem consolidate_exTasks :
    consolidateSiblingTasks [exTaskA, exTaskB] ["M0"] = .ok [exParent] := by
  have h0 : consolidateSiblingTasks [exTaskA, exTaskB] ["M0"] =
      .ok [Task.mk 0 1 ((0 + exTaskA.batchSize) + exTaskB.batchSize)
        "" "M0" "PU0" "MAIN_A" [exTaskA, exTaskB]] := rfl
  rw [h0]
  norm_num [exTaskA, exTaskB, exParent]

/-- Claim C3: every synthetic parent produced by the Consolidator in MTS
mode (over leaf input tasks, a parent being recognizable by its nonempty
`subtasks`) has `batchSize` equal to the sum of its subtasks' batch sizes,
all its subtasks share its `tBegin`, `tEnd`, `machine` and
`processingUnit`, and its `operation` is `MAIN_` prepended to the first
concurrent task's operation (the first subtask, since deduplication keeps
the first occurrence first). -/
theorem consolidateSiblingTasks_parent_invariants
    (tasks : List Task) (machines : List String) (res : List Task)
    (hsub : ∀ t ∈ tasks, t.subtasks = ([] : List Task))
    (hok : consolidateSiblingTasks tasks machines = .ok res) :
    ∀ t ∈ res, t.subtasks ≠ [] →
      (t.subtasks.map Task.batchSize).sum = t.batchSize ∧
      (∀ s ∈ t.subtasks, s.tBegin = t.tBegin ∧ s.tEnd = t.tEnd ∧
        s.machine = t.machine ∧ s.processingUnit = t.processingUnit) ∧
      ∃ s0 tl, t.subtasks = s0 :: tl ∧ t.operation = "MAIN_" ++ s0.operation := by
  intro t ht hne
  obtain ⟨m, _, slot, hslot, hc⟩ := consolidateSiblingTasks_ok_mem hok t ht
  cases hg : concurrentOf (compatibleTasks m tasks) slot with
  | nil =>
    rw [hg] at hc
    simp [consolidateSlot] at hc
  | cons t0 gs =>
    cases gs with
    | nil =>
      rw [hg] at hc
      simp only [consolidateSlot, Except.ok.injEq] at hc
      exfalso
      apply hne
      rw [← hc]
      apply hsub
      have ht0 : t0 ∈ concurrentOf (compatibleTasks m tasks) slot := by
        rw [hg]
        simp
      exact (mem_compatibleTasks.1 (mem_concurrentOf.1 ht0).1).1
    | cons t1 grest =>
      rw [hg] at hc
      have hsub0 : ∀ g ∈ t0 :: t1 :: grest, g.subtasks = ([] : List Task) := by
        intro g hgmem
        have hgc : g ∈ concurrentOf (compatibleTasks m tasks) slot := by
          rw [hg]
          exact hgmem
        exact hsub g (mem_compatibleTasks.1 (mem_concurrentOf.1 hgc).1).1
      obtain ⟨hsum, hfields, tl, htl, hop⟩ := consolidateSlot_parent hsub0 hc hne
      exact ⟨hsum, hfields, t0, tl, htl, hop⟩

/-- Witness for C3: consolidating the two-task group of `exTaskA` and
`exTaskB` yields the synthetic parent `exParent`, which satisfies all the
claimed invariants. -/
theorem consolidateSiblingTasks_parent_invariants_witness :
    (exParent.subtasks.map Task.batchSize).sum = exParent.batchSize ∧
    (∀ s ∈ exParent.subtasks, s.tBegin = exParent.tBegin ∧ s.tEnd = exParent.tEnd ∧
      s.machine = exParent.machine ∧ s.processingUnit = exParent.processingUnit) ∧
    ∃ s0 tl, exParent.subtasks = s0 :: tl ∧
      exParent.operation = "MAIN_" ++ s0.operation := by
  have hsub : ∀ t ∈ [exTaskA, exTaskB], t.subtasks = ([] : List Task) := by
    intro t htm
    rcases List.mem_cons.1 htm with rfl | htm
    · rfl
    · rcases List.mem_cons.1 htm with rfl | htm
      · rfl
      · simp at htm
  exact consolidateSiblingTasks_parent_invariants [exTaskA, exTaskB] ["M0"]
    [exParent] hsub consolidate_exTasks exParent (by simp)
    (by simp [exParent])

/-- Claim C6 counterexample: the defensive consistency check of the
Consolidator is reachable — two well-formed MTS lines on the same machine
and slot but with different processing units make the run fail with the
`SUBTASKS DO NOT MATCH MAIN TASK` exit. -/
theorem consolidate_check_fails_on_mixed_pu :
    ∃ ts, parseTasks "MTS" ["PU0_M0_B 0 1 A 10", "PU1_M0_C 0 1 Y 20"] = .ok ts ∧
      failureOf (consolidateSiblingTasks ts ["M0"]) =
        some ⟨5, "SUBTASKS DO NOT MATCH MAIN TASK"⟩ :=
  ⟨[Task.mk 0 1 10 "B" "M0" "PU0" "A" [], Task.mk 0 1 20 "C" "M0" "PU1" "Y" []],
    rfl, by decide⟩

/-- Claim C6 (amended): the machine and interval parts of the
Consolidator's defensive check can never fail (they are guaranteed by the
grouping); only the processingUnit comparison can.  When all tasks that
share a machine and an exact time slot agree on `processingUnit`, the
Consolidator always succeeds. -/
theorem consolidateSiblingTasks_ok_of_pu_agreement
    (tasks : List Task) (machines : List String)
    (hpu : ∀ t1 ∈ tasks, ∀ t2 ∈ tasks, t1.machine = t2.machine →
      t1.tBegin = t2.tBegin → t1.tEnd = t2.tEnd →
      t1.processingUnit = t2.processingUnit) :
    ∃ res, consolidateSiblingTasks tasks machines = .ok res := by
  induction machines with
  | nil => exact ⟨[], rfl⟩
  | cons m restM ih =>
    obtain ⟨a, ha⟩ := consolidateMachine_isOk (m := m) hpu
    obtain ⟨b, hb⟩ := ih
    refine ⟨a ++ b, ?_⟩
    rw [consolidateSiblingTasks, ha, hb]

/-- Witness for C6 (amended): a two-task group with matching processing
units consolidates successfully. -/
theorem consolidateSiblingTasks_ok_of_pu_agreement_witness :
    ∃ res, consolidateSiblingTasks [exTaskA, exTaskB] ["M0"] = .ok res :=
  consolidateSiblingTasks_ok_of_pu_agreement [exTaskA, exTaskB] ["M0"] (by decide)

/-- Claim C7: in the Consolidator, a concurrent group (of two or more
tasks, passing the defensive check) is deduplicated first, and when
deduplication collapses it to exactly one task that task is emitted
directly — no synthetic parent, no subtasks. -/
theorem consolidateSlot_dedup_singleton (m : String) (slot : ℚ × ℚ)
    (t0 t1 : Task) (rest : List Task) (u : Task)
    (hchk : ∀ cct ∈ t0 :: t1 :: rest,
      cct.machine = m ∧ cct.processingUnit = t0.processingUnit ∧
      cct.tBegin = slot.1 ∧ cct.tEnd = slot.2)
    (hsub : ∀ g ∈ t0 :: t1 :: rest, g.subtasks = ([] : List Task))
    (hded : removeDuplicateTasks (t0 :: t1 :: rest) = [u]) :
    consolidateSlot m slot (t0 :: t1 :: rest) = .ok u ∧ u.subtasks = [] := by
  constructor
  · rw [consolidateSlot, if_pos hchk]
    unfold consolidateSubs
    rw [hded]
    simp
  · exact hsub u ((removeDuplicateTasks_sublist _).subset (by rw [hded]; simp))

/-- Witness for C7: the verbatim-duplicated task group `[exTaskA, exTaskA]`
deduplicates to `[exTaskA]` and is emitted directly. -/
theorem consolidateSlot_dedup_singleton_witness :
    consolidateSlot "M0" (0, 1) [exTaskA, exTaskA] = .ok exTaskA ∧
      exTaskA.subtasks = [] := by
  have hsub : ∀ g ∈ [exTaskA, exTaskA], g.subtasks = ([] : List Task) := by
    intro g hgm
    rcases List.mem_cons.1 hgm with rfl | hgm
    · rfl
    · rcases List.mem_cons.1 hgm with rfl | hgm
      · rfl
      · simp at hgm
  exact consolidateSlot_dedup_singleton "M0" (0, 1) exTaskA exTaskA [] exTaskA
    (by decide) hsub rfl

/-- Claim C9 counterexample: the Parser does not enforce
`tBegin <= tEnd` — a line with `tBegin > tEnd` parses successfully. -/
theorem parser_does_not_enforce_interval :
    ∃ t, parseTasks "SCH" ["M1 5 1 A 2"] = .ok [t] ∧ t.tEnd < t.tBegin :=
  ⟨Task.mk 5 1 2 "" "M1" "" "A" [], rfl, by decide⟩

/-- Claim C9 (amended): the `tBegin <= tEnd` invariant is not established
by the Parser, but it is preserved: if every input task satisfies it, so
does every task in the Deduplicator's output and in any successful
Consolidator output. -/
theorem interval_invariant_preserved
    (tasks : List Task) (machines : List String)
    (h : ∀ t ∈ tasks, t.tBegin ≤ t.tEnd) :
    (∀ t ∈ removeDuplicateTasks tasks, t.tBegin ≤ t.tEnd) ∧
    (∀ res, consolidateSiblingTasks tasks machines = .ok res →
      ∀ t ∈ res, t.tBegin ≤ t.tEnd) := by
  constructor
  · intro t ht
    exact h t ((removeDuplicateTasks_sublist tasks).subset ht)
  · intro res hres t ht
    obtain ⟨m, _, slot, hslot, hc⟩ := consolidateSiblingTasks_ok_mem hres t ht
    rcases consolidateSlot_ok_provenance hc with hmem | ⟨h1, h2⟩
    · exact h t (mem_compatibleTasks.1 (mem_concurrentOf.1 hmem).1).1
    · obtain ⟨u, hu, hus⟩ := mem_distinctSlots.1 hslot
      have hle : u.tBegin ≤ u.tEnd := h u (mem_compatibleTasks.1 hu).1
      rw [h1, h2, hus]
      exact hle

/-- Witness for C9 (amended): preservation on a concrete single-task
input. -/
theorem interval_invariant_preserved_witness :
    (∀ t ∈ removeDuplicateTasks [exTaskA], t.tBegin ≤ t.tEnd) ∧
    (∀ res, consolidateSiblingTasks [exTaskA] ["M0"] = .ok res →
      ∀ t ∈ res, t.tBegin ≤ t.tEnd) :=
  interval_invariant_preserved [exTaskA] ["M0"] (by decide)

/-! ### The Parser's field separation and the command-line check -/

/-- Claim C1 (code bug evidence): a line with its 5 fields separated by
single spaces parses into exactly one task, but the same logical fields
separated by a run of two spaces — allowed by the documented format
("columns separated with at least one space character") — are rejected
with the wrong-number-of-columns exit, because `line.split(" ")` keeps
empty strings between consecutive separators. -/
theorem parseTasks_splits_on_single_spaces_only :
    parseTasks "SCH" ["M1 0 1 A 2"] = .ok [Task.mk 0 1 2 "" "M1" "" "A" []] ∧
    failureOf (parseTasks "SCH" ["M1  0 1 A 2"]) =
      some ⟨5, "HAS WRONG NUMBER OF COLUMNS"⟩ :=
  ⟨rfl, by decide⟩

/-- Claim C5 (code bug evidence): a wrong positional-argument count makes
`readArgs` print the usage and exit with code 5, but an unrecognized mode
only prints the diagnostic and usage and then returns the argument list —
the run continues instead of exiting. -/
theorem readArgs_bad_mode_does_not_exit :
    readArgs ["plotGantt.py", "MTS"] =
      (["ERROR - Wrong number of arguments!",
        "Usage: plotGantt.py TYPE path/to/result/file.gantt where TYPE is : MTS / SCH"],
       .error ⟨5, "wrong number of arguments"⟩) ∧
    readArgs ["plotGantt.py", "FOO", "f.gantt"] =
      (["ERROR - Wrong type specified! : FOO",
        "Usage: plotGantt.py TYPE path/to/result/file.gantt where TYPE is : MTS / SCH"],
       .ok ["plotGantt.py", "FOO", "f.gantt"]) :=
  ⟨rfl, rfl⟩

/-- Claim C8: in MTS mode, on a 5-column line whose numeric fields parse,
the run fails with the MTS FormatError when field 0 does not split on
underscores into exactly 3 parts; when it splits into exactly 3 parts,
they become the Task's processingUnit, machine and order respectively. -/
theorem parseLine_mts_triple (line w0 w1 w2 w3 w4 : String) (b e s : ℚ)
    (hsplit : pySplit line ' ' = [w0, w1, w2, w3, w4])
    (h1 : pyFloat w1 = some b) (h2 : pyFloat w2 = some e)
    (h4 : pyFloat w4 = some s) :
    ((pySplit w0 '_').length ≠ 3 →
      parseLine "MTS" line = .error ⟨5,
        "MTS INFO DOES NOT ADHERE TO MY STANDARD: processingUnit_machine_order"⟩) ∧
    (∀ p0 p1 p2, pySplit w0 '_' = [p0, p1, p2] →
      parseLine "MTS" line = .ok (Task.mk b e s p2 p1 p0 w3 [])) := by
  constructor
  · intro hlen
    simp [parseLine, hsplit, checkLineStandardCompliance,
      checkMTSinfoCompliance, h1, h2, h4, hlen]
  · intro p0 p1 p2 hp
    simp [parseLine, hsplit, checkLineStandardCompliance,
      checkMTSinfoCompliance, h1, h2, h4, hp]

/-- Witness for C8: the MTS line `PU0_M0_B 0 1 A 2` parses with
processingUnit `PU0`, machine `M0` and order `B`. -/
theorem parseLine_mts_triple_witness :
    parseLine "MTS" "PU0_M0_B 0 1 A 2" = .ok (Task.mk 0 1 2 "B" "M0" "PU0" "A" []) :=
  (parseLine_mts_triple "PU0_M0_B 0 1 A 2" "PU0_M0_B" "0" "1" "A" "2" 0 1 2
    (by decide) (by decide) (by decide) (by decide)).2 "PU0" "M0" "B" (by decide)

/-! ### Properties of the overlap checker -/

theorem slotLe_of_slotLt {a b : ℚ × ℚ} (h : slotLt a b) : slotLe a b := by
  rcases h with h | ⟨h1, h2⟩
  · exact Or.inl h
  · exact Or.inr ⟨h1, le_of_lt h2⟩

theorem slotLe_trans {a b c : ℚ × ℚ} (h1 : slotLe a b) (h2 : slotLe b c) :
    slotLe a c := by
  rcases h1 with ha | ⟨ha1, ha2⟩ <;> rcases h2 with hb | ⟨hb1, hb2⟩
  · exact Or.inl (lt_trans ha hb)
  · exact Or.inl (hb1 ▸ ha)
  · exact Or.inl (ha1 ▸ hb)
  · exact Or.inr ⟨ha1.trans hb1, le_trans ha2 hb2⟩

theorem slotLt_irrefl (a : ℚ × ℚ) : ¬ slotLt a a := by
  rintro (h | ⟨-, h⟩) <;> exact lt_irrefl _ h

theorem slotLt_asymm {a b : ℚ × ℚ} (h : slotLe a b) : ¬ slotLt b a := by
  rintro (hb | ⟨hb1, hb2⟩)
  · rcases h with h1 | ⟨h1, -⟩
    · exact lt_irrefl _ (lt_trans h1 hb)
    · rw [h1] at hb
      exact lt_irrefl _ hb
  · rcases h with h1 | ⟨-, h2⟩
    · rw [hb1] at h1
      exact lt_irrefl _ h1
    · exact lt_irrefl _ (lt_of_le_of_lt h2 hb2)

theorem slotLt_of_slotLe_ne {a b : ℚ × ℚ} (h : slotLe a b) (hne : a ≠ b) :
    slotLt a b := by
  rcases h with h1 | ⟨h1, h2⟩
  · exact Or.inl h1
  · rcases lt_or_eq_of_le h2 with h3 | h3
    · exact Or.inr ⟨h1, h3⟩
    · exact absurd (Prod.ext_iff.2 ⟨h1, h3⟩) hne

theorem slotLe_of_not_slotLt {a b : ℚ × ℚ} (h : ¬ slotLt a b) : slotLe b a := by
  rcases lt_trichotomy a.1 b.1 with h1 | h1 | h1
  · exact absurd (Or.inl h1) h
  · rcases le_or_lt a.2 b.2 with h2 | h2
    · rcases lt_or_eq_of_le h2 with h3 | h3
      · exact absurd (Or.inr ⟨h1, h3⟩) h
      · exact Or.inr ⟨h1.symm, le_of_eq h3.symm⟩
    · exact Or.inr ⟨h1.symm, le_of_lt h2⟩
  · exact Or.inl h1

theorem mem_insertSlot {a x : ℚ × ℚ} :
    ∀ {l : List (ℚ × ℚ)}, x ∈ insertSlot a l ↔ x = a ∨ x ∈ l := by
  intro l
  induction l with
  | nil => simp [insertSlot]
  | cons b t ih =>
    unfold insertSlot
    split_ifs with h
    · simp only [List.mem_cons]
    · simp only [List.mem_cons, ih]
      tauto

theorem sorted_insertSlot {a : ℚ × ℚ} :
    ∀ {l : List (ℚ × ℚ)}, l.Pairwise slotLe → (insertSlot a l).Pairwise slotLe := by
  intro l
  induction l with
  | nil => simp [insertSlot]
  | cons b t ih =>
    intro hp
    rw [List.pairwise_cons] at hp
    unfold insertSlot
    split_ifs with h
    · rw [List.pairwise_cons]
      constructor
      · intro x hx
        rcases List.mem_cons.1 hx with rfl | hx
        · exact slotLe_of_slotLt h
        · exact slotLe_trans (slotLe_of_slotLt h) (hp.1 x hx)
      · exact List.pairwise_cons.2 ⟨hp.1, hp.2⟩
    · rw [List.pairwise_cons]
      constructor
      · intro x hx
        rcases mem_insertSlot.1 hx with rfl | hx
        · exact slotLe_of_not_slotLt h
        · exact hp.1 x hx
      · exact ih hp.2

theorem perm_insertSlot (a : ℚ × ℚ) :
    ∀ l : List (ℚ × ℚ), (insertSlot a l).Perm (a :: l) := by
  intro l
  induction l with
  | nil => exact List.Perm.refl _
  | cons b t ih =>
    unfold insertSlot
    split_ifs with h
    · exact List.Perm.refl _
    · exact (ih.cons b).trans (List.Perm.swap a b t)

theorem sortSlots_perm (l : List (ℚ × ℚ)) : (sortSlots l).Perm l := by
  unfold sortSlots
  induction l with
  | nil => exact List.Perm.refl _
  | cons a t ih =>
    rw [List.foldr_cons]
    exact (perm_insertSlot a _).trans (ih.cons a)

theorem sortSlots_sorted (l : List (ℚ × ℚ)) : (sortSlots l).Pairwise slotLe := by
  unfold sortSlots
  induction l with
  | nil => simp
  | cons a t ih =>
    rw [List.foldr_cons]
    exact sorted_insertSlot ih

theorem hasOverlapIn_eq_false_iff :
    ∀ l : List (ℚ × ℚ), hasOverlapIn l = false ↔
      l.Pairwise fun a b => ¬ (b.1 < a.2) := by
  intro l
  induction l with
  | nil => simp [hasOverlapIn]
  | cons s rest ih =>
    simp [hasOverlapIn, ih, List.pairwise_cons]

theorem sorted_nodup_overlap_iff :
    ∀ l : List (ℚ × ℚ), l.Pairwise slotLe → l.Nodup →
      (hasOverlapIn l = true ↔ ∃ a ∈ l, ∃ b ∈ l, slotLt a b ∧ b.1 < a.2) := by
  intro l
  induction l with
  | nil => simp [hasOverlapIn]
  | cons c rest ih =>
    intro hs hn
    rw [List.pairwise_cons] at hs
    rw [List.nodup_cons] at hn
    constructor
    · intro h
      rw [hasOverlapIn, Bool.or_eq_true] at h
      rcases h with hany | hrec
      · obtain ⟨b, hb, hlt⟩ := List.any_eq_true.1 hany
        have hblt : b.1 < c.2 := of_decide_eq_true hlt
        have hcb : slotLt c b :=
          slotLt_of_slotLe_ne (hs.1 b hb) fun he => hn.1 (he ▸ hb)
        exact ⟨c, by simp, b, by simp [hb], hcb, hblt⟩
      · obtain ⟨a, ha, b, hb, h1, h2⟩ := (ih hs.2 hn.2).1 hrec
        exact ⟨a, by simp [ha], b, by simp [hb], h1, h2⟩
    · rintro ⟨a, ha, b, hb, hab, hba⟩
      rw [hasOverlapIn, Bool.or_eq_true]
      rcases List.mem_cons.1 ha with ha' | ha'
      · rcases List.mem_cons.1 hb with hb' | hb'
        · exfalso
          rw [ha', hb'] at hab
          exact slotLt_irrefl c hab
        · rw [ha'] at hba
          exact Or.inl (List.any_eq_true.2 ⟨b, hb', decide_eq_true hba⟩)
      · rcases List.mem_cons.1 hb with hb' | hb'
        · exfalso
          rw [hb'] at hab
          exact slotLt_asymm (hs.1 a ha') hab
        · exact Or.inr ((ih hs.2 hn.2).2 ⟨a, ha', b, hb', hab, hba⟩)

/-- Claim C2 (amended): the overlap checker returns true iff some machine
has two distinct slots, the lexicographically smaller `(b1, e1)` and the
larger `(b2, e2)`, with `e1 > b2`.  (Slots that merely touch, `e1 = b2`,
are never reported.) -/
theorem checkForOverlappingTasks_iff (tasks : List Task) (machines : List String) :
    checkForOverlappingTasks tasks machines = true ↔
      ∃ m ∈ machines, ∃ s1 ∈ machineSlots m tasks, ∃ s2 ∈ machineSlots m tasks,
        slotLt s1 s2 ∧ s2.1 < s1.2 := by
  unfold checkForOverlappingTasks
  rw [List.any_eq_true]
  refine exists_congr fun m => and_congr_right fun _ => ?_
  have hperm := sortSlots_perm (machineSlots m tasks)
  have hsort := sortSlots_sorted (machineSlots m tasks)
  have hnd : (sortSlots (machineSlots m tasks)).Nodup :=
    hperm.nodup_iff.2 (nodup_distinctSlots (compatibleTasks m tasks))
  rw [sorted_nodup_overlap_iff _ hsort hnd]
  constructor
  · rintro ⟨a, ha, b, hb, h1, h2⟩
    exact ⟨a, hperm.subset ha, b, hperm.subset hb, h1, h2⟩
  · rintro ⟨a, ha, b, hb, h1, h2⟩
    exact ⟨a, hperm.mem_iff.2 ha, b, hperm.mem_iff.2 hb, h1, h2⟩

/-- Claim C2 counterexample: on machine `M1` with the two distinct slots
`(0, 1)` and `(0, 2)` the checker reports an overlap, yet no two slots of
the machine satisfy the claimed condition `b1 < b2 ∧ e1 > b2` (their
begins are equal, so the strict `b1 < b2` never holds). -/
theorem checkForOverlappingTasks_same_begin :
    checkForOverlappingTasks
      [Task.mk 0 1 1 "" "M1" "" "A" [], Task.mk 0 2 1 "" "M1" "" "B" []]
      ["M1"] = true ∧
    ¬ (∃ m ∈ ["M1"],
        ∃ s1 ∈ machineSlots m
          [Task.mk 0 1 1 "" "M1" "" "A" [], Task.mk 0 2 1 "" "M1" "" "B" []],
        ∃ s2 ∈ machineSlots m
          [Task.mk 0 1 1 "" "M1" "" "A" [], Task.mk 0 2 1 "" "M1" "" "B" []],
        s1.1 < s2.1 ∧ s1.2 > s2.1) :=
  ⟨by decide, by decide⟩

end PlotGantt
